import Mathlib

/-!
# Verification of the fastgraph core (node.rs, edge_list.rs)

Shallow embedding of the directed-graph library: nodes are identified by
their keys (the code's `PartialEq for Node` is key equality), edges are
`(source key, target key, payload)` triples, and the shared mutable
visited-flags (`AtomicBool` on nodes, one per edge) are modelled as an
explicit flag state threaded through the traversal functions.  An edge's
flag is addressed by its `(source, target)` pair; `connect` is the sole
edge constructor and rejects duplicate ordered pairs, so in every
reachable graph this addressing is injective on live edges.

The `global` module (the `OPEN`/`CLOSED` constants) and the shared handle
types (`NodeRef`, `EdgeRef`, `ListRef`) are not under `src/`; the handles
are modelled by the explicit state passing and the constants below.
-/

namespace Fastgraph

/-- Modelled from the spec: the external `global` module provides "two named
boolean constants denoting OPEN and CLOSED traversal states" (spec §6).
`Node::new` initialises the flag to `false` and `Node::to_string`
(node.rs:245) renders a `false` flag as `"OPEN"`, pinning `OPEN = false`. -/
def OPEN : Bool := false

/-- Modelled from the spec: counterpart of `OPEN`; `CLOSED = true`
(node.rs:245 renders a `true` flag as `"CLOSED"`). -/
def CLOSED : Bool := true

/-- An edge: source key, target key, payload (edge.rs `Edge` through the
contract of spec §4.3; comparisons in node.rs use only `source()`/`target()`
node equality, which is key equality). -/
structure Edge (K : Type) (E : Type) where
  src : K
  tgt : K
  data : E
deriving DecidableEq

/-- The mutable visited-flag state: one flag per node key, one flag per
edge (addressed by its `(source, target)` pair). -/
structure St (K : Type) where
  nodeFlag : K → Bool
  edgeFlag : K → K → Bool

variable {K E : Type} [DecidableEq K]

/-- `Node::close` (node.rs:131). -/
def St.closeNode (st : St K) (k : K) : St K :=
  { st with nodeFlag := fun x => if x = k then CLOSED else st.nodeFlag x }

/-- `Node::open` (node.rs:135). -/
def St.openNode (st : St K) (k : K) : St K :=
  { st with nodeFlag := fun x => if x = k then OPEN else st.nodeFlag x }

/-- `Edge::close` for the edge with the given `(source, target)` pair. -/
def St.closeEdge (st : St K) (s t : K) : St K :=
  { st with edgeFlag := fun x y => if x = s ∧ y = t then CLOSED else st.edgeFlag x y }

/-- `Edge::open` for the edge with the given `(source, target)` pair. -/
def St.openEdge (st : St K) (s t : K) : St K :=
  { st with edgeFlag := fun x y => if x = s ∧ y = t then OPEN else st.edgeFlag x y }

/-- `EdgeList::open_all` (edge_list.rs:90-97): for each edge in list order,
open the edge, its target node and its source node. -/
def open_all (st : St K) (l : List (Edge K E)) : St K :=
  l.foldl (fun s e => ((s.openEdge e.src e.tgt).openNode e.tgt).openNode e.src) st

/-- `Node::traverse_consume_node` (node.rs:165-183): scan this node's
outbound list; for each edge whose flag and target-node flag are both OPEN,
close both, push the target on the queue and the edge on the result trace,
and short-circuit with `true` the moment the target is reached. -/
def traverse_consume_node (target : K) :
    List (Edge K E) → St K → List K → List (Edge K E) →
    St K × List K × List (Edge K E) × Bool
  | [], st, q, r => (st, q, r, false)
  | e :: rest, st, q, r =>
    if st.edgeFlag e.src e.tgt = OPEN ∧ st.nodeFlag e.tgt = OPEN then
      let st1 := (st.closeEdge e.src e.tgt).closeNode e.tgt
      let q1 := q ++ [e.tgt]
      let r1 := r ++ [e]
      if e.tgt = target then (st1, q1, r1, true)
      else traverse_consume_node target rest st1 q1 r1
    else traverse_consume_node target rest st q r

/-- The queue-draining `loop` shared by `traverse_breadth` and
`shortest_path` (node.rs:193-205, 218-229).  `fuel` bounds the number of
pops; the Rust loop needs none (each push closes a previously OPEN node),
and `none` here means only that the bound was exhausted before the loop
returned. -/
def bfsLoop (adj : K → List (Edge K E)) (target : K) :
    Nat → St K → List K → List (Edge K E) →
    Option (St K × List (Edge K E) × Bool)
  | _, st, [], result => some (st, result, false)
  | 0, _, _ :: _, _ => none
  | fuel + 1, st, n :: rest, result =>
    match traverse_consume_node target (adj n) st rest result with
    | (st1, q1, r1, found) =>
      if found then some (st1, r1, true)
      else bfsLoop adj target fuel st1 q1 r1

/-- The search shared by `traverse_breadth` and `shortest_path`
(node.rs:185-232): close self, expand self's frontier, then drain the
queue.  Returns the final flag state, the accumulated trace, whether the
target was found, and whether it was found already in the first
(self) expansion — the two callers treat that case differently. -/
def runSearch (adj : K → List (Edge K E)) (a target : K) (fuel : Nat)
    (st : St K) : Option (St K × List (Edge K E) × Bool × Bool) :=
  let st1 := st.closeNode a
  match traverse_consume_node target (adj a) st1 [] [] with
  | (st2, q, r, found) =>
    if found then some (st2, r, true, true)
    else
      match bfsLoop adj target fuel st2 q r with
      | none => none
      | some (st3, r3, found3) => some (st3, r3, found3, false)

/-- `Node::traverse_breadth` (node.rs:185-208): on success (whether in the
first expansion or the loop) run `result.open_all()` and return the raw
trace; on failure run `result.open_all()` and return no path. -/
def traverse_breadth (adj : K → List (Edge K E)) (a target : K) (fuel : Nat)
    (st : St K) : Option (St K × Option (List (Edge K E))) :=
  match runSearch adj a target fuel st with
  | none => none
  | some (st1, r, found, _) =>
    some (open_all st1 r, if found then some r else none)

/-- `EdgeList::backtrack`'s scan (edge_list.rs:144-154): walk the reversed
input; open every edge and both its endpoints; append an edge to the
result whenever its target equals the source of `res[i]`, the most
recently appended result edge. -/
def backtrackAux : List (Edge K E) → St K → List (Edge K E) → Nat →
    St K × List (Edge K E)
  | [], st, res, _ => (st, res)
  | e :: rest, st, res, i =>
    let st1 := ((st.openEdge e.src e.tgt).openNode e.tgt).openNode e.src
    match res[i]? with
    | some r =>
      if e.tgt = r.src then backtrackAux rest st1 (res ++ [e]) (i + 1)
      else backtrackAux rest st1 res i
    | none => backtrackAux rest st1 res i

/-- `EdgeList::backtrack` (edge_list.rs:138-156): `none` on an empty list;
otherwise seed the result with the last input edge and run the reverse
scan (which also opens every input edge and its endpoints). -/
def backtrack (st : St K) (l : List (Edge K E)) :
    St K × Option (List (Edge K E)) :=
  match l.reverse with
  | [] => (st, none)
  | last :: _ =>
    let p := backtrackAux l.reverse st [last] 0
    (p.1, some p.2)

/-- `Node::shortest_path` (node.rs:210-232): like `traverse_breadth`, but
success found in the first (self) expansion returns the raw trace after
`open_all`, success found in the loop returns `result.backtrack()`, and
failure returns no path after `open_all`. -/
def shortest_path (adj : K → List (Edge K E)) (a target : K) (fuel : Nat)
    (st : St K) : Option (St K × Option (List (Edge K E))) :=
  match runSearch adj a target fuel st with
  | none => none
  | some (st1, r, found, first) =>
    if found then
      if first then some (open_all st1 r, some r)
      else some (backtrack st1 r)
    else some (open_all st1 r, none)

/-- Projection dropping the flag state from a traversal result, for
statements about the returned path only. -/
def pathOf (r : Option (St K × Option (List (Edge K E)))) :
    Option (Option (List (Edge K E))) :=
  r.map (fun p => p.2)

/-- The adjacency structure maintained by `connect`/`disconnect`: each
node's outbound and inbound `EdgeList` (node.rs:38-39). -/
structure Conn (K E : Type) where
  outbound : K → List (Edge K E)
  inbound : K → List (Edge K E)

/-- The graph with no edges: every node fresh from `Node::new`
(node.rs:105-113) has empty outbound and inbound lists. -/
def conn0 : Conn K E := ⟨fun _ => [], fun _ => []⟩

/-- The indexed linear scan shared by `find_outbound` and `find_inbound`
(node.rs:141-161): first index `i` (counting from the given start) of an
edge whose TARGET equals `k`. -/
def findTgtIdx (k : K) : List (Edge K E) → Nat → Option Nat
  | [], _ => none
  | e :: rest, i => if e.tgt = k then some i else findTgtIdx k rest (i + 1)

/-- `Node::find_outbound` (node.rs:141-150): first outbound edge whose
target equals the argument. -/
def find_outbound (c : Conn K E) (n target : K) : Option Nat :=
  findTgtIdx target (c.outbound n) 0

/-- `Node::find_inbound` (node.rs:152-161): as written it compares
`edge.target()` (not `edge.source()`) with the argument. -/
def find_inbound (c : Conn K E) (n source : K) : Option Nat :=
  findTgtIdx source (c.inbound n) 0

/-- `EdgeList::del_index` (edge_list.rs:84-88): remove by position, silent
no-op when out of bounds. -/
def del_index (l : List (Edge K E)) (i : Nat) : List (Edge K E) :=
  if i < l.length then l.eraseIdx i else l

/-- `connect` (node.rs:269-286): fail on an existing `source → target`
edge, otherwise append one shared edge to source's outbound list and
target's inbound list. -/
def connect (c : Conn K E) (source target : K) (data : E) : Conn K E × Bool :=
  match find_outbound c source target with
  | some _ => (c, false)
  | none =>
    (⟨fun k => if k = source then c.outbound k ++ [⟨source, target, data⟩] else c.outbound k,
      fun k => if k = target then c.inbound k ++ [⟨source, target, data⟩] else c.inbound k⟩,
     true)

/-- `disconnect` (node.rs:288-313): find the first outbound edge of
`source` whose target is `target`; if present, delete from `target`'s
inbound list the first entry whose TARGET is `target` (the scan compares
`edge_in.target() == target`), delete the outbound entry by index, and
return true. -/
def disconnect (c : Conn K E) (source target : K) : Conn K E × Bool :=
  match findTgtIdx target (c.outbound source) 0 with
  | none => (c, false)
  | some i =>
    let inb := c.inbound target
    let inb1 := match findTgtIdx target inb 0 with
      | some j => del_index inb j
      | none => inb
    (⟨fun k => if k = source then del_index (c.outbound k) i else c.outbound k,
      fun k => if k = target then inb1 else c.inbound k⟩,
     true)

/-- A graph-mutation call: the only two adjacency mutators (spec §4.4). -/
inductive GOp (K E : Type) where
  | connect (source target : K) (data : E)
  | disconnect (source target : K)

/-- Apply one mutation call to the adjacency state. -/
def applyOp (c : Conn K E) : GOp K E → Conn K E
  | .connect s t d => (connect c s t d).1
  | .disconnect s t => (disconnect c s t).1

/-- Apply a sequence of `connect`/`disconnect` calls. -/
def applyOps (c : Conn K E) (ops : List (GOp K E)) : Conn K E :=
  ops.foldl applyOp c

/-- The mirror invariant (spec §3): every outbound edge of a node has that
node as source, every inbound edge has it as target. -/
def MirrorInv (c : Conn K E) : Prop :=
  ∀ n : K, (∀ e ∈ c.outbound n, e.src = n) ∧ (∀ e ∈ c.inbound n, e.tgt = n)

/-- The reverse scan of `backtrack` as the spec words it (§4.1): keep the
most recently appended edge `cur`; append any reverse-order edge whose
target equals `cur`'s source, which then becomes `cur`. -/
def backtrackScan : List (Edge K E) → Edge K E → List (Edge K E) → List (Edge K E)
  | [], _, acc => acc
  | e :: rest, cur, acc =>
    if e.tgt = cur.src then backtrackScan rest e (acc ++ [e])
    else backtrackScan rest cur acc

/-- `backtrack`'s returned chain as the spec words it (§4.1): none exactly
on the empty list; otherwise seed with the last input edge and run the
reverse scan over the whole reversed input. -/
def backtrackSpec (l : List (Edge K E)) : Option (List (Edge K E)) :=
  match l.reverse with
  | [] => none
  | last :: _ => some (backtrackScan l.reverse last [last])

/-- The all-OPEN flag state (every node and edge flag OPEN). -/
def stOpen : St K := ⟨fun _ => OPEN, fun _ _ => OPEN⟩

/-- Everything a closed flag can be traced back to: during the search
started at `a`, a closed edge flag belongs to an edge of the trace `r`,
and a closed node other than `a` is the target of a trace edge. -/
def ClosedInv (a : K) (st : St K) (r : List (Edge K E)) : Prop :=
  (∀ s t, st.edgeFlag s t = CLOSED → ∃ e ∈ r, e.src = s ∧ e.tgt = t) ∧
  (∀ k, st.nodeFlag k = CLOSED → k = a ∨ ∃ e ∈ r, e.tgt = k)

/-- The flag state a completed search from `a` leaves behind: every edge
flag OPEN, every node flag other than `a`'s OPEN, and `a`'s own flag OPEN
as well whenever `a` has an outbound edge whose target is not `a`. -/
def FlagsRestored (a : K) (st : St K) (adjA : List (Edge K E)) : Prop :=
  (∀ s t, st.edgeFlag s t = OPEN) ∧
  (∀ k, k ≠ a → st.nodeFlag k = OPEN) ∧
  ((∃ e ∈ adjA, e.tgt ≠ a) → st.nodeFlag a = OPEN)

/-- The during-search marking invariant: targets of distinct trace edges
are distinct, and every trace-edge target is currently CLOSED. -/
def TraceInv (st : St K) (r : List (Edge K E)) : Prop :=
  (r.map Edge.tgt).Nodup ∧ ∀ k ∈ r.map Edge.tgt, st.nodeFlag k = CLOSED

/-- Concrete graph for C2: node 0 has outbound edges 0→1 and 0→2 (in that
order); nodes 1 and 2 have none.  The only route 0→2 is the direct edge. -/
def adjC2 : Nat → List (Edge Nat Unit) :=
  fun k => if k = 0 then [⟨0, 1, ()⟩, ⟨0, 2, ()⟩] else []

/-- Concrete graph for C3, built by `connect("A","B")` then
`connect("B","C")` starting from fresh nodes. -/
def c3graph : Conn String Unit :=
  (connect (connect conn0 "A" "B" ()).1 "B" "C" ()).1

/-- Concrete adjacency with a pre-existing edge 0→1, built by `connect`. -/
def cPre : Conn Nat Unit := (connect conn0 0 1 ()).1

/-- Concrete adjacency for C4/C8: edges 9→1 and 0→1, so node 1's inbound
list is `[9→1, 0→1]` (first inbound entry from source 9). -/
def cC4 : Conn Nat Unit := (connect (connect conn0 9 1 ()).1 0 1 ()).1

/-- Concrete graph for the C1/C10 witnesses: edges 0→1 and 1→2 with the
search run from 0 to 2 (success found in the queue-draining loop). -/
def adjW : Nat → List (Edge Nat Unit) :=
  fun k => if k = 0 then [⟨0, 1, ()⟩] else if k = 1 then [⟨1, 2, ()⟩] else []

/-- The completed C1-witness run of `traverse_breadth` on `adjW`. -/
def pW : St Nat × Option (List (Edge Nat Unit)) :=
  (traverse_breadth adjW 0 2 5 stOpen).getD ⟨stOpen, none⟩

/-- The completed C1-witness run of `shortest_path` on `adjW`. -/
def qW : St Nat × Option (List (Edge Nat Unit)) :=
  (shortest_path adjW 0 2 5 stOpen).getD ⟨stOpen, none⟩

/-- The completed C10-witness run of the shared search on `adjW`. -/
def rsW : St Nat × List (Edge Nat Unit) × Bool × Bool :=
  (runSearch adjW 0 2 5 stOpen).getD ⟨stOpen, [], false, false⟩

/-!  ## Basic flag-state lemmas  -/

@[simp]
theorem nodeFlag_closeNode (st : St K) (k x : K) :
    (st.closeNode k).nodeFlag x = if x = k then CLOSED else st.nodeFlag x := rfl

@[simp]
theorem nodeFlag_openNode (st : St K) (k x : K) :
    (st.openNode k).nodeFlag x = if x = k then OPEN else st.nodeFlag x := rfl

@[simp]
theorem edgeFlag_closeNode (st : St K) (k : K) :
    (st.closeNode k).edgeFlag = st.edgeFlag := rfl

@[simp]
theorem edgeFlag_openNode (st : St K) (k : K) :
    (st.openNode k).edgeFlag = st.edgeFlag := rfl

@[simp]
theorem edgeFlag_closeEdge (st : St K) (s t x y : K) :
    (st.closeEdge s t).edgeFlag x y =
      if x = s ∧ y = t then CLOSED else st.edgeFlag x y := rfl

@[simp]
theorem edgeFlag_openEdge (st : St K) (s t x y : K) :
    (st.openEdge s t).edgeFlag x y =
      if x = s ∧ y = t then OPEN else st.edgeFlag x y := rfl

@[simp]
theorem nodeFlag_closeEdge (st : St K) (s t : K) :
    (st.closeEdge s t).nodeFlag = st.nodeFlag := rfl

@[simp]
theorem nodeFlag_openEdge (st : St K) (s t : K) :
    (st.openEdge s t).nodeFlag = st.nodeFlag := rfl

theorem open_ne_closed : OPEN ≠ CLOSED := by decide

/-!  ## `backtrack` as a pure scan (C5)  -/

theorem backtrackAux_snd (rest : List (Edge K E)) :
    ∀ (st : St K) (res : List (Edge K E)) (i : Nat) (cur : Edge K E),
      res[i]? = some cur → i + 1 = res.length →
      (backtrackAux rest st res i).2 = backtrackScan rest cur res := by
  induction rest with
  | nil => intro st res i cur _ _; rfl
  | cons e rest ih =>
    intro st res i cur h1 h2
    simp only [backtrackAux, backtrackScan, h1]
    by_cases htc : e.tgt = cur.src
    · simp only [htc, if_true]
      apply ih
      · rw [h2]; exact List.getElem?_concat_length res e
      · simp [← h2]
    · simp only [htc, if_false]
      exact ih _ res i cur h1 h2

theorem backtrackScan_head (rest : List (Edge K E)) :
    ∀ (cur a : Edge K E) (acc : List (Edge K E)),
      (backtrackScan rest cur (a :: acc)).head? = some a := by
  induction rest with
  | nil => intro cur a acc; rfl
  | cons e rest ih =>
    intro cur a acc
    simp only [backtrackScan]
    by_cases htc : e.tgt = cur.src
    · simpa [htc] using ih e a (acc ++ [e])
    · simpa [htc] using ih cur a acc

/-- C5: `backtrack` returns none exactly on the empty list; on a non-empty
list it returns the chain described by the spec scan `backtrackSpec`:
seeded with the last input edge (which is therefore the head of the
returned chain), then scanning the whole input in reverse and appending
each edge whose target equals the source of the most recently appended
result edge. -/
theorem backtrack_characterization (st : St K) (l : List (Edge K E)) :
    (backtrack st l).2 = backtrackSpec l ∧
    ((backtrack st l).2 = none ↔ l = []) ∧
    (backtrack st l).2.bind List.head? = l.getLast? := by
  cases hrev : l.reverse with
  | nil =>
    have hl : l = [] := List.reverse_eq_nil_iff.mp hrev
    subst hl
    refine ⟨rfl, by simp [backtrack, backtrackSpec], by simp [backtrack]⟩
  | cons last rest =>
    have hb := backtrackAux_snd l.reverse st [last] 0 last rfl rfl
    rw [hrev] at hb
    have hne : (backtrack st l).2 = some (backtrackScan (last :: rest) last [last]) := by
      simp only [backtrack, hrev]
      exact congrArg some hb
    have hspec : backtrackSpec l = some (backtrackScan (last :: rest) last [last]) := by
      simp only [backtrackSpec, hrev]
    have hlne : l ≠ [] := by
      intro h; subst h; simp at hrev
    refine ⟨hne.trans hspec.symm, ?_, ?_⟩
    · simp only [hne]
      simp [hlne]
    · have hh := backtrackScan_head l.reverse last last []
      rw [hrev] at hh
      rw [hne, List.getLast?_eq_head?_reverse, hrev]
      simpa using hh

/-!  ## `open_all` and the state effect of `backtrack`  -/

theorem open_all_pres_node (l : List (Edge K E)) :
    ∀ (st : St K) (k : K), st.nodeFlag k = OPEN → (open_all st l).nodeFlag k = OPEN := by
  induction l with
  | nil => intro st k h; exact h
  | cons e l ih =>
    intro st k h
    apply ih
    simp only [nodeFlag_openNode, nodeFlag_openEdge]
    split <;> [rfl; skip]
    split <;> [rfl; exact h]

theorem open_all_pres_edge (l : List (Edge K E)) :
    ∀ (st : St K) (s t : K), st.edgeFlag s t = OPEN → (open_all st l).edgeFlag s t = OPEN := by
  induction l with
  | nil => intro st s t h; exact h
  | cons e l ih =>
    intro st s t h
    apply ih
    simp only [edgeFlag_openNode, edgeFlag_openEdge]
    split <;> [rfl; exact h]

theorem open_all_mem (l : List (Edge K E)) :
    ∀ (st : St K), ∀ e ∈ l,
      (open_all st l).edgeFlag e.src e.tgt = OPEN ∧
      (open_all st l).nodeFlag e.src = OPEN ∧
      (open_all st l).nodeFlag e.tgt = OPEN := by
  induction l with
  | nil => intro st e he; cases he
  | cons a l ih =>
    intro st e he
    rcases List.mem_cons.mp he with h | h
    · subst h
      refine ⟨open_all_pres_edge l _ _ _ ?_, open_all_pres_node l _ _ ?_,
        open_all_pres_node l _ _ ?_⟩ <;> simp
    · exact ih _ e h

theorem backtrackAux_fst (rest : List (Edge K E)) :
    ∀ (st : St K) (res : List (Edge K E)) (i : Nat),
      (backtrackAux rest st res i).1 = open_all st rest := by
  induction rest with
  | nil => intro st res i; rfl
  | cons e rest ih =>
    intro st res i
    have hstep : open_all st (e :: rest) =
        open_all (((st.openEdge e.src e.tgt).openNode e.tgt).openNode e.src) rest := rfl
    rw [hstep]
    simp only [backtrackAux]
    cases res[i]? with
    | none => exact ih _ _ _
    | some r =>
      by_cases htc : e.tgt = r.src
      · simp only [htc, if_true]; exact ih _ _ _
      · simp only [htc, if_false]; exact ih _ _ _

/-- C9: on a non-empty list, `backtrack` not only builds the returned
chain but also opens the flag of every edge of the input list and the
flags of both endpoint nodes of every such edge — this is the restoration
step on the `shortest_path` success path that goes through `backtrack`
rather than `open_all`. -/
theorem backtrack_opens_trace (st : St K) (l : List (Edge K E)) (h : l ≠ []) :
    (∀ e ∈ l,
      (backtrack st l).1.edgeFlag e.src e.tgt = OPEN ∧
      (backtrack st l).1.nodeFlag e.src = OPEN ∧
      (backtrack st l).1.nodeFlag e.tgt = OPEN) ∧
    ((backtrack st l).2).isSome := by
  cases hrev : l.reverse with
  | nil => exact absurd (List.reverse_eq_nil_iff.mp hrev) h
  | cons last rest =>
    have hfst : (backtrack st l).1 = open_all st l.reverse := by
      simp only [backtrack, hrev]
      have := backtrackAux_fst (last :: rest) st [last] 0
      rw [← hrev] at this ⊢
      exact this
    have hsnd : ((backtrack st l).2).isSome := by
      simp only [backtrack, hrev]
      rfl
    refine ⟨?_, hsnd⟩
    intro e he
    rw [hfst]
    exact open_all_mem l.reverse st e (List.mem_reverse.mpr he)

/-- Witness for C9 at the one-edge list `[0→1]` from the all-OPEN state. -/
theorem backtrack_opens_trace_witness :
    ([(⟨0, 1, ()⟩ : Edge Nat Unit)] ≠ []) ∧
    ((∀ e ∈ [(⟨0, 1, ()⟩ : Edge Nat Unit)],
      (backtrack stOpen [(⟨0, 1, ()⟩ : Edge Nat Unit)]).1.edgeFlag e.src e.tgt = OPEN ∧
      (backtrack stOpen [(⟨0, 1, ()⟩ : Edge Nat Unit)]).1.nodeFlag e.src = OPEN ∧
      (backtrack stOpen [(⟨0, 1, ()⟩ : Edge Nat Unit)]).1.nodeFlag e.tgt = OPEN) ∧
    ((backtrack stOpen [(⟨0, 1, ()⟩ : Edge Nat Unit)]).2).isSome) :=
  ⟨by decide, backtrack_opens_trace stOpen [⟨0, 1, ()⟩] (by decide)⟩

/-!  ## `findTgtIdx` facts, C8 and C4  -/

theorem findTgtIdx_all_eq {n : K} (l : List (Edge K E)) (i : Nat)
    (hne : l ≠ []) (hall : ∀ e ∈ l, e.tgt = n) :
    findTgtIdx n l i = some i := by
  cases l with
  | nil => exact absurd rfl hne
  | cons e l =>
    have : e.tgt = n := hall e (List.mem_cons_self e l)
    simp [findTgtIdx, this]

theorem findTgtIdx_none {k : K} (l : List (Edge K E)) :
    ∀ i, (∀ e ∈ l, e.tgt ≠ k) → findTgtIdx k l i = none := by
  induction l with
  | nil => intro i _; rfl
  | cons e l ih =>
    intro i hall
    have h1 : e.tgt ≠ k := hall e (List.mem_cons_self e l)
    simp only [findTgtIdx, h1, if_false]
    exact ih _ fun e' he' => hall e' (List.mem_cons_of_mem _ he')

/-- C8: `find_inbound` compares the ARGUMENT against each inbound edge's
target; under the mirror invariant every inbound edge of `n` has target
`n`, so on a non-empty inbound list it returns index 0 when called with
`n` itself and none for every other key — it cannot distinguish inbound
edges by their source. -/
theorem find_inbound_blind (c : Conn K E) (n : K)
    (hinv : ∀ e ∈ c.inbound n, e.tgt = n) (hne : c.inbound n ≠ []) :
    find_inbound c n n = some 0 ∧
    ∀ arg, arg ≠ n → find_inbound c n arg = none := by
  constructor
  · exact findTgtIdx_all_eq (c.inbound n) 0 hne hinv
  · intro arg harg
    exact findTgtIdx_none (c.inbound n) 0 fun e he => (hinv e he).symm ▸ (Ne.symm harg)

/-- Witness for C8 on `cC4` at node 1 (inbound list `[9→1, 0→1]`). -/
theorem find_inbound_blind_witness :
    (∀ e ∈ cC4.inbound 1, e.tgt = 1) ∧ cC4.inbound 1 ≠ [] ∧
    find_inbound cC4 1 1 = some 0 ∧ find_inbound cC4 1 0 = none :=
  ⟨by decide, by decide,
    (find_inbound_blind cC4 1 (by decide) (by decide)).1,
    (find_inbound_blind cC4 1 (by decide) (by decide)).2 0 (by decide)⟩

/-- C4: when `disconnect` finds a matching outbound edge, the inbound scan
compares `edge_in.target()` with `target`, which holds of every inbound
entry under the mirror invariant — so the entry it deletes is the FIRST
entry of the target's inbound list, whatever its source; the matching
outbound entry is then removed by index and the call returns true. -/
theorem disconnect_removes_first_inbound (c : Conn K E) (s t : K) (i : Nat)
    (hout : findTgtIdx t (c.outbound s) 0 = some i)
    (hinv : ∀ e ∈ c.inbound t, e.tgt = t)
    (hne : c.inbound t ≠ []) :
    (disconnect c s t).2 = true ∧
    (disconnect c s t).1.inbound t = (c.inbound t).tail ∧
    (disconnect c s t).1.outbound s = del_index (c.outbound s) i := by
  have hin : findTgtIdx t (c.inbound t) 0 = some 0 :=
    findTgtIdx_all_eq (c.inbound t) 0 hne hinv
  refine ⟨?_, ?_, ?_⟩
  · simp [disconnect, hout]
  · simp only [disconnect, hout, hin]
    have hlen : 0 < (c.inbound t).length := List.length_pos.mpr hne
    simp [del_index, hlen, List.eraseIdx_zero]
  · simp [disconnect, hout, hin]

/-- Witness for C4 on `cC4`: `disconnect(0, 1)` deletes the inbound entry
`9→1` (index 0, whose source is 9, not 0). -/
theorem disconnect_removes_first_inbound_witness :
    findTgtIdx 1 (cC4.outbound 0) 0 = some 0 ∧
    (∀ e ∈ cC4.inbound 1, e.tgt = 1) ∧ cC4.inbound 1 ≠ [] ∧
    ((disconnect cC4 0 1).2 = true ∧
     (disconnect cC4 0 1).1.inbound 1 = (cC4.inbound 1).tail ∧
     (disconnect cC4 0 1).1.outbound 0 = del_index (cC4.outbound 0) 0) :=
  ⟨by decide, by decide, by decide,
    disconnect_removes_first_inbound cC4 0 1 0 (by decide) (by decide) (by decide)⟩

/-!  ## `connect` called twice (C6)  -/

/-- C6 counterexample: on a graph that already has the edge 0→1 (built by
a prior `connect`), calling `connect(0, 1, _)` twice returns false on the
FIRST call already, and the outbound length does not change — the claim's
unconditional "true then false, length +1" fails. -/
theorem connect_twice_preexisting :
    (connect cPre 0 1 ()).2 = false ∧
    (connect (connect cPre 0 1 ()).1 0 1 ()).2 = false ∧
    ((connect (connect cPre 0 1 ()).1 0 1 ()).1.outbound 0).length =
      (cPre.outbound 0).length := by decide

theorem findTgtIdx_append_isSome {k : K} {e : Edge K E} (hk : e.tgt = k)
    (l : List (Edge K E)) : ∀ i, (findTgtIdx k (l ++ [e]) i).isSome := by
  induction l with
  | nil => intro i; simp [findTgtIdx, hk]
  | cons a l ih =>
    intro i
    by_cases ha : a.tgt = k
    · simp [findTgtIdx, ha]
    · simp only [List.cons_append, findTgtIdx, ha, if_false]
      exact ih _

/-- C6 amended: PROVIDED no edge `a→b` exists beforehand, `connect(a,b,_)`
twice returns true then false, and the lengths of `a`'s outbound and
`b`'s inbound lists increase by exactly one across the two calls. -/
theorem connect_twice (c : Conn K E) (a b : K) (d d' : E)
    (h : find_outbound c a b = none) :
    (connect c a b d).2 = true ∧
    (connect (connect c a b d).1 a b d').2 = false ∧
    ((connect (connect c a b d).1 a b d').1.outbound a).length =
      (c.outbound a).length + 1 ∧
    ((connect (connect c a b d).1 a b d').1.inbound b).length =
      (c.inbound b).length + 1 := by
  have hc1 : connect c a b d =
      (⟨fun k => if k = a then c.outbound k ++ [⟨a, b, d⟩] else c.outbound k,
        fun k => if k = b then c.inbound k ++ [⟨a, b, d⟩] else c.inbound k⟩, true) := by
    simp [connect, h]
  have hout1 : (connect c a b d).1.outbound a = c.outbound a ++ [⟨a, b, d⟩] := by
    rw [hc1]; simp
  have hin1 : (connect c a b d).1.inbound b = c.inbound b ++ [⟨a, b, d⟩] := by
    rw [hc1]; simp
  have hfind : (find_outbound (connect c a b d).1 a b).isSome := by
    rw [find_outbound, hout1]
    exact findTgtIdx_append_isSome (e := ⟨a, b, d⟩) rfl (c.outbound a) 0
  obtain ⟨m, hm⟩ := Option.isSome_iff_exists.mp hfind
  have hc2 : connect (connect c a b d).1 a b d' = ((connect c a b d).1, false) := by
    generalize hg : (connect c a b d).1 = c1 at hm ⊢
    simp [connect, hm]
  refine ⟨by rw [hc1], by rw [hc2], ?_, ?_⟩
  · rw [hc2]; simp [hout1]
  · rw [hc2]; simp [hin1]

/-- Witness for C6 (amended) from the empty graph at the pair (0, 1). -/
theorem connect_twice_witness :
    find_outbound (conn0 : Conn Nat Unit) 0 1 = none ∧
    ((connect (conn0 : Conn Nat Unit) 0 1 ()).2 = true ∧
     (connect (connect (conn0 : Conn Nat Unit) 0 1 ()).1 0 1 ()).2 = false ∧
     ((connect (connect (conn0 : Conn Nat Unit) 0 1 ()).1 0 1 ()).1.outbound 0).length =
       ((conn0 : Conn Nat Unit).outbound 0).length + 1 ∧
     ((connect (connect (conn0 : Conn Nat Unit) 0 1 ()).1 0 1 ()).1.inbound 1).length =
       ((conn0 : Conn Nat Unit).inbound 1).length + 1) :=
  ⟨by decide, connect_twice conn0 0 1 () () (by decide)⟩

/-!  ## The concrete A→B→C scenario (C3)  -/

/-- C3 counterexample: on the graph built by `connect(A,B)` then
`connect(B,C)`, `A.shortest_path(C)` does NOT return the chain in the
order `[A→B, B→C]` the claim states. -/
theorem shortest_path_c3_not_forward :
    pathOf (shortest_path c3graph.outbound "A" "C" 5 stOpen) ≠
      some (some [⟨"A", "B", ()⟩, ⟨"B", "C", ()⟩]) := by decide

/-- C3 amended: `A.shortest_path(C)` on that graph returns the path edges
in TARGET-TO-SOURCE order, `[B→C, A→B]` (the `backtrack` result is seeded
with the edge that completed the search and appends root-ward). -/
theorem shortest_path_c3_reversed :
    pathOf (shortest_path c3graph.outbound "A" "C" 5 stOpen) =
      some (some [⟨"B", "C", ()⟩, ⟨"A", "B", ()⟩]) := by decide

@[simp]
theorem nodeFlag_stOpen (k : K) : (stOpen : St K).nodeFlag k = OPEN := rfl

@[simp]
theorem edgeFlag_stOpen (s t : K) : (stOpen : St K).edgeFlag s t = OPEN := rfl

theorem ne_open_eq_closed {x : Bool} (h : ¬x = OPEN) : x = CLOSED := by
  cases x
  · exact absurd rfl h
  · rfl

/-!  ## The mirror invariant under `connect`/`disconnect` (C7)  -/

theorem mem_of_mem_del_index {l : List (Edge K E)} {i : Nat} {e : Edge K E}
    (h : e ∈ del_index l i) : e ∈ l := by
  unfold del_index at h
  split at h
  · exact List.eraseIdx_subset l i h
  · exact h

theorem mirror_connect (c : Conn K E) (s t : K) (d : E) (h : MirrorInv c) :
    MirrorInv (connect c s t d).1 := by
  cases hf : find_outbound c s t with
  | some m => simpa [connect, hf] using h
  | none =>
    intro n
    refine ⟨?_, ?_⟩
    · intro e he
      simp only [connect, hf] at he
      by_cases hn : n = s
      · rw [if_pos hn] at he
        rcases List.mem_append.mp he with h1 | h1
        · exact (h n).1 e h1
        · rw [List.mem_singleton.mp h1, hn]
      · rw [if_neg hn] at he
        exact (h n).1 e he
    · intro e he
      simp only [connect, hf] at he
      by_cases hn : n = t
      · rw [if_pos hn] at he
        rcases List.mem_append.mp he with h1 | h1
        · exact (h n).2 e h1
        · rw [List.mem_singleton.mp h1, hn]
      · rw [if_neg hn] at he
        exact (h n).2 e he

theorem mirror_disconnect (c : Conn K E) (s t : K) (h : MirrorInv c) :
    MirrorInv (disconnect c s t).1 := by
  cases hf : findTgtIdx t (c.outbound s) 0 with
  | none => simpa [disconnect, hf] using h
  | some i =>
    intro n
    refine ⟨?_, ?_⟩
    · intro e he
      simp only [disconnect, hf] at he
      by_cases hn : n = s
      · rw [if_pos hn] at he
        exact (h n).1 e (hn ▸ mem_of_mem_del_index (hn ▸ he))
      · rw [if_neg hn] at he
        exact (h n).1 e he
    · intro e he
      simp only [disconnect, hf] at he
      by_cases hn : n = t
      · rw [if_pos hn] at he
        have hmem : e ∈ c.inbound t := by
          cases hg : findTgtIdx t (c.inbound t) 0 with
          | none => rw [hg] at he; exact he
          | some j => rw [hg] at he; exact mem_of_mem_del_index he
        exact (h n).2 e (hn ▸ hmem)
      · rw [if_neg hn] at he
        exact (h n).2 e he

theorem mirror_applyOp (c : Conn K E) (op : GOp K E) (h : MirrorInv c) :
    MirrorInv (applyOp c op) := by
  cases op with
  | connect s t d => exact mirror_connect c s t d h
  | disconnect s t => exact mirror_disconnect c s t h

theorem mirror_conn0 : MirrorInv (conn0 : Conn K E) :=
  fun _ => ⟨fun e he => absurd he (List.not_mem_nil e),
            fun e he => absurd he (List.not_mem_nil e)⟩

/-- C7: starting from fresh `Node::new` nodes (all edge lists empty),
every sequence of `connect`/`disconnect` calls preserves the mirror
invariant: each outbound edge of a node has that node as its source and
each inbound edge has it as its target (node equality is key equality). -/
theorem mirror_invariant_ops (ops : List (GOp K E)) :
    MirrorInv (applyOps conn0 ops) := by
  suffices h : ∀ c : Conn K E, MirrorInv c → MirrorInv (applyOps c ops) from
    h conn0 mirror_conn0
  induction ops with
  | nil => intro c h; exact h
  | cons op ops ih =>
    intro c h
    exact ih _ (mirror_applyOp c op h)

/-!  ## Shape of the BFS expansion step and loop  -/

theorem consume_shape (target : K) (l : List (Edge K E)) :
    ∀ (st : St K) (q : List K) (r : List (Edge K E)) st' q' r' f,
      traverse_consume_node target l st q r = (st', q', r', f) →
      ∃ Δ, r' = r ++ Δ ∧ q' = q ++ Δ.map Edge.tgt := by
  induction l with
  | nil =>
    intro st q r st' q' r' f h
    cases h
    exact ⟨[], by simp⟩
  | cons e l ih =>
    intro st q r st' q' r' f h
    simp only [traverse_consume_node] at h
    by_cases hc : st.edgeFlag e.src e.tgt = OPEN ∧ st.nodeFlag e.tgt = OPEN
    · rw [if_pos hc] at h
      by_cases ht : e.tgt = target
      · rw [if_pos ht] at h
        cases h
        exact ⟨[e], by simp⟩
      · rw [if_neg ht] at h
        obtain ⟨d, h1, h2⟩ := ih _ _ _ _ _ _ _ h
        exact ⟨e :: d, by simp [h1], by simp [h2]⟩
    · rw [if_neg hc] at h
      exact ih _ _ _ _ _ _ _ h

theorem bfsLoop_shape (adj : K → List (Edge K E)) (target : K) :
    ∀ (fuel : Nat) (st : St K) (q : List K) (r : List (Edge K E)) st' r' f,
      bfsLoop adj target fuel st q r = some (st', r', f) →
      ∃ Δ, r' = r ++ Δ := by
  intro fuel
  induction fuel with
  | zero =>
    intro st q r st' r' f h
    cases q with
    | nil => cases h; exact ⟨[], by simp⟩
    | cons n rest => cases h
  | succ fuel ih =>
    intro st q r st' r' f h
    cases q with
    | nil => cases h; exact ⟨[], by simp⟩
    | cons n rest =>
      simp only [bfsLoop] at h
      rcases hc : traverse_consume_node target (adj n) st rest r with ⟨st1, q1, r1, found⟩
      rw [hc] at h
      obtain ⟨d1, hd1, -⟩ := consume_shape target (adj n) _ _ _ _ _ _ _ hc
      cases found with
      | true =>
        simp only [if_true] at h
        cases h
        exact ⟨d1, hd1⟩
      | false =>
        simp only [Bool.false_eq_true, if_false] at h
        obtain ⟨d2, hd2⟩ := ih _ _ _ _ _ _ h
        exact ⟨d1 ++ d2, by rw [hd2, hd1, List.append_assoc]⟩

theorem consume_nonempty_of_found (target : K) (l : List (Edge K E)) :
    ∀ (st : St K) (q : List K) (r : List (Edge K E)) st' q' r',
      traverse_consume_node target l st q r = (st', q', r', true) →
      r' ≠ [] := by
  induction l with
  | nil =>
    intro st q r st' q' r' h
    cases h
  | cons e l ih =>
    intro st q r st' q' r' h
    simp only [traverse_consume_node] at h
    by_cases hc : st.edgeFlag e.src e.tgt = OPEN ∧ st.nodeFlag e.tgt = OPEN
    · rw [if_pos hc] at h
      by_cases ht : e.tgt = target
      · rw [if_pos ht] at h
        cases h
        simp
      · rw [if_neg ht] at h
        exact ih _ _ _ _ _ _ h
    · rw [if_neg hc] at h
      exact ih _ _ _ _ _ _ h

theorem bfsLoop_nonempty_of_found (adj : K → List (Edge K E)) (target : K) :
    ∀ (fuel : Nat) (st : St K) (q : List K) (r : List (Edge K E)) st' r',
      bfsLoop adj target fuel st q r = some (st', r', true) →
      r' ≠ [] := by
  intro fuel
  induction fuel with
  | zero =>
    intro st q r st' r' h
    cases q with
    | nil => cases h
    | cons n rest => cases h
  | succ fuel ih =>
    intro st q r st' r' h
    cases q with
    | nil => cases h
    | cons n rest =>
      simp only [bfsLoop] at h
      rcases hc : traverse_consume_node target (adj n) st rest r with ⟨st1, q1, r1, found⟩
      rw [hc] at h
      cases found with
      | true =>
        simp only [if_true] at h
        cases h
        exact consume_nonempty_of_found target (adj n) _ _ _ _ _ _ hc
      | false =>
        simp only [Bool.false_eq_true, if_false] at h
        exact ih _ _ _ _ _ h

/-!  ## Each edge traced once, each node enqueued once (C10)  -/

theorem consume_traceInv (target : K) (l : List (Edge K E)) :
    ∀ (st : St K) (q : List K) (r : List (Edge K E)) st' q' r' f,
      traverse_consume_node target l st q r = (st', q', r', f) →
      TraceInv st r → TraceInv st' r' := by
  induction l with
  | nil =>
    intro st q r st' q' r' f h hinv
    cases h
    exact hinv
  | cons e l ih =>
    intro st q r st' q' r' f h hinv
    simp only [traverse_consume_node] at h
    by_cases hc : st.edgeFlag e.src e.tgt = OPEN ∧ st.nodeFlag e.tgt = OPEN
    · rw [if_pos hc] at h
      have hnotin : e.tgt ∉ r.map Edge.tgt := by
        intro hmem
        have := hinv.2 e.tgt hmem
        rw [hc.2] at this
        exact open_ne_closed this
      have hinv1 : TraceInv ((st.closeEdge e.src e.tgt).closeNode e.tgt) (r ++ [e]) := by
        constructor
        · rw [List.map_append]
          rw [List.nodup_append]
          exact ⟨hinv.1, List.nodup_singleton _, by
            intro x hx hx2
            rw [List.map_singleton, List.mem_singleton] at hx2
            exact hnotin (hx2 ▸ hx)⟩
        · intro k hk
          rw [List.map_append, List.mem_append] at hk
          simp only [nodeFlag_closeNode, nodeFlag_closeEdge]
          rcases hk with hk | hk
          · split
            · rfl
            · exact hinv.2 k hk
          · rw [List.map_singleton, List.mem_singleton] at hk
            rw [if_pos hk]
      by_cases ht : e.tgt = target
      · rw [if_pos ht] at h
        cases h
        exact hinv1
      · rw [if_neg ht] at h
        exact ih _ _ _ _ _ _ _ h hinv1
    · rw [if_neg hc] at h
      exact ih _ _ _ _ _ _ _ h hinv

theorem bfsLoop_traceInv (adj : K → List (Edge K E)) (target : K) :
    ∀ (fuel : Nat) (st : St K) (q : List K) (r : List (Edge K E)) st' r' f,
      bfsLoop adj target fuel st q r = some (st', r', f) →
      TraceInv st r → TraceInv st' r' := by
  intro fuel
  induction fuel with
  | zero =>
    intro st q r st' r' f h hinv
    cases q with
    | nil => cases h; exact hinv
    | cons n rest => cases h
  | succ fuel ih =>
    intro st q r st' r' f h hinv
    cases q with
    | nil => cases h; exact hinv
    | cons n rest =>
      simp only [bfsLoop] at h
      rcases hc : traverse_consume_node target (adj n) st rest r with ⟨st1, q1, r1, found⟩
      rw [hc] at h
      have hinv1 := consume_traceInv target (adj n) _ _ _ _ _ _ _ hc hinv
      cases found with
      | true =>
        simp only [if_true] at h
        cases h
        exact hinv1
      | false =>
        simp only [Bool.false_eq_true, if_false] at h
        exact ih _ _ _ _ _ _ h hinv1

/-- C10: during a single search (`runSearch` is the search shared by
`traverse_breadth` and `shortest_path`), each edge is appended to the
result trace at most once and each node is enqueued at most once: the
targets of the trace edges (exactly the enqueued nodes, pushed in the
same step that appends their edge) are pairwise distinct, hence so are
the trace edges themselves. -/
theorem runSearch_trace_nodup (adj : K → List (Edge K E)) (a b : K)
    (fuel : Nat) (st : St K) {st3 : St K} {r : List (Edge K E)} {f fc : Bool}
    (hrun : runSearch adj a b fuel st = some (st3, r, f, fc)) :
    (r.map Edge.tgt).Nodup ∧ r.Nodup := by
  have hbase : TraceInv (st.closeNode a) ([] : List (Edge K E)) :=
    ⟨List.nodup_nil, by intro k hk; cases hk⟩
  have hmain : TraceInv st3 r := by
    simp only [runSearch] at hrun
    rcases hc : traverse_consume_node b (adj a) (st.closeNode a) [] [] with
      ⟨st2, q2, r2, found⟩
    rw [hc] at hrun
    have hinv2 := consume_traceInv b (adj a) _ _ _ _ _ _ _ hc hbase
    cases found with
    | true =>
      simp only [if_true] at hrun
      cases hrun
      exact hinv2
    | false =>
      simp only [Bool.false_eq_true, if_false] at hrun
      rcases hl : bfsLoop adj b fuel st2 q2 r2 with - | ⟨st4, r4, f4⟩
      · rw [hl] at hrun; cases hrun
      · rw [hl] at hrun
        cases hrun
        exact bfsLoop_traceInv adj b fuel _ _ _ _ _ _ hl hinv2
  exact ⟨hmain.1, hmain.1.of_map⟩

/-- Witness for C10: the completed run on `adjW` from 0 towards 2. -/
theorem runSearch_trace_nodup_witness :
    runSearch adjW 0 2 5 stOpen = some rsW ∧
    ((rsW.2.1.map Edge.tgt).Nodup ∧ rsW.2.1.Nodup) :=
  ⟨rfl, runSearch_trace_nodup adjW 0 2 5 stOpen rfl⟩

/-!  ## `shortest_path` on a direct edge (C2)  -/

theorem consume_prefix (a b : K) (d : E) (l2 : List (Edge K E)) (l1 : List (Edge K E)) :
    ∀ (st : St K) (q : List K) (r : List (Edge K E)),
      (∀ e ∈ l1, e.src = a) →
      (∀ e ∈ l1, e.tgt ≠ b) →
      (l1.map Edge.tgt).Nodup →
      (∀ e ∈ l1, st.edgeFlag e.src e.tgt = OPEN) →
      st.edgeFlag a b = OPEN →
      (∀ e ∈ l1, st.nodeFlag e.tgt = OPEN) →
      st.nodeFlag b = OPEN →
      ∃ st', traverse_consume_node b (l1 ++ ⟨a, b, d⟩ :: l2) st q r =
        (st', q ++ l1.map Edge.tgt ++ [b], r ++ l1 ++ [⟨a, b, d⟩], true) := by
  induction l1 with
  | nil =>
    intro st q r _ _ _ _ he2 _ hn2
    refine ⟨(st.closeEdge a b).closeNode b, ?_⟩
    simp only [List.nil_append, traverse_consume_node]
    rw [if_pos ⟨he2, hn2⟩]
    simp
  | cons e l1 ih =>
    intro st q r hsrc htgt hnd he1 he2 hn1 hn2
    have hesrc : e.src = a := hsrc e (List.mem_cons_self e l1)
    have hetgt : e.tgt ≠ b := htgt e (List.mem_cons_self e l1)
    have hntl : e.tgt ∉ l1.map Edge.tgt := by
      have := hnd
      rw [List.map_cons, List.nodup_cons] at this
      exact this.1
    have hndtl : (l1.map Edge.tgt).Nodup := by
      have := hnd
      rw [List.map_cons, List.nodup_cons] at this
      exact this.2
    have hcond : st.edgeFlag e.src e.tgt = OPEN ∧ st.nodeFlag e.tgt = OPEN :=
      ⟨he1 e (List.mem_cons_self e l1), hn1 e (List.mem_cons_self e l1)⟩
    have hstep := ih ((st.closeEdge e.src e.tgt).closeNode e.tgt)
      (q ++ [e.tgt]) (r ++ [e])
      (fun e' he' => hsrc e' (List.mem_cons_of_mem _ he'))
      (fun e' he' => htgt e' (List.mem_cons_of_mem _ he'))
      hndtl
      (fun e' he' => by
        simp only [edgeFlag_closeNode, edgeFlag_closeEdge]
        have h1 : e'.tgt ≠ e.tgt := by
          intro hh
          exact hntl (hh ▸ List.mem_map_of_mem Edge.tgt he')
        rw [if_neg (by intro hh; exact h1 hh.2)]
        exact he1 e' (List.mem_cons_of_mem _ he'))
      (by
        simp only [edgeFlag_closeNode, edgeFlag_closeEdge]
        rw [if_neg (by intro hh; exact hetgt hh.2.symm)]
        exact he2)
      (fun e' he' => by
        simp only [nodeFlag_closeNode, nodeFlag_closeEdge]
        have h1 : e'.tgt ≠ e.tgt := by
          intro hh
          exact hntl (hh ▸ List.mem_map_of_mem Edge.tgt he')
        rw [if_neg h1]
        exact hn1 e' (List.mem_cons_of_mem _ he'))
      (by
        simp only [nodeFlag_closeNode, nodeFlag_closeEdge]
        rw [if_neg (Ne.symm hetgt)]
        exact hn2)
    obtain ⟨st', hst'⟩ := hstep
    refine ⟨st', ?_⟩
    simp only [List.cons_append, traverse_consume_node]
    rw [if_pos hcond, if_neg hetgt]
    simp only [List.append_eq]
    rw [hst']
    simp

/-- C2 counterexample: in `adjC2` the only directed route 0→2 is the
direct edge 0→2 and all flags are OPEN beforehand, yet `shortest_path`
returns the TWO-edge raw trace `[0→1, 0→2]` — the first-expansion success
path returns the trace without calling `backtrack`, so the chain is not
the claimed single edge. -/
theorem shortest_path_direct_not_single :
    pathOf (shortest_path adjC2 0 2 5 stOpen) =
      some (some [⟨0, 1, ()⟩, ⟨0, 2, ()⟩]) ∧
    ([(⟨0, 1, ()⟩ : Edge Nat Unit), ⟨0, 2, ()⟩].length ≠ 1) := by decide

/-- C2 amended: with all flags OPEN and `a`'s outbound list
`l1 ++ [a→b] ++ l2`, where the edges of `l1` leave `a`, avoid `a` and `b`
and have pairwise distinct targets, `a.shortest_path(b)` returns
`Some (l1 ++ [a→b])`: the final edge has source `a` and target `b`, but
the outbound edges of `a` that PRECEDE `a→b` are also in the returned
list, so the chain has exactly one edge only when no expandable edge
precedes `a→b` in `a`'s outbound list. -/
theorem shortest_path_direct_edge (adj : K → List (Edge K E)) (a b : K) (d : E)
    (fuel : Nat) (l1 l2 : List (Edge K E))
    (hadj : adj a = l1 ++ ⟨a, b, d⟩ :: l2)
    (hsrc : ∀ e ∈ l1, e.src = a)
    (htgtb : ∀ e ∈ l1, e.tgt ≠ b)
    (htgta : ∀ e ∈ l1, e.tgt ≠ a)
    (hnd : (l1.map Edge.tgt).Nodup)
    (hba : b ≠ a) :
    pathOf (shortest_path adj a b fuel stOpen) = some (some (l1 ++ [⟨a, b, d⟩])) := by
  have hcons := consume_prefix a b d l2 l1 ((stOpen : St K).closeNode a) [] []
    hsrc htgtb hnd
    (fun e _ => rfl)
    rfl
    (fun e he => by
      simp only [nodeFlag_closeNode]
      rw [if_neg (htgta e he)]
      rfl)
    (by
      simp only [nodeFlag_closeNode]
      rw [if_neg hba]
      rfl)
  obtain ⟨st', hst'⟩ := hcons
  rw [← hadj] at hst'
  simp only [shortest_path, runSearch, hst']
  rfl

/-!  ## Flag restoration after a completed search (C1)  -/

theorem consume_closedInv (a target : K) (l : List (Edge K E)) :
    ∀ (st : St K) (q : List K) (r : List (Edge K E)) st' q' r' f,
      traverse_consume_node target l st q r = (st', q', r', f) →
      ClosedInv a st r → ClosedInv a st' r' := by
  induction l with
  | nil =>
    intro st q r st' q' r' f h hinv
    cases h
    exact hinv
  | cons e l ih =>
    intro st q r st' q' r' f h hinv
    simp only [traverse_consume_node] at h
    by_cases hc : st.edgeFlag e.src e.tgt = OPEN ∧ st.nodeFlag e.tgt = OPEN
    · rw [if_pos hc] at h
      have hinv1 : ClosedInv a ((st.closeEdge e.src e.tgt).closeNode e.tgt) (r ++ [e]) := by
        constructor
        · intro s t hst
          simp only [edgeFlag_closeNode, edgeFlag_closeEdge] at hst
          by_cases hse : s = e.src ∧ t = e.tgt
          · exact ⟨e, List.mem_append_right _ (by simp), hse.1.symm, hse.2.symm⟩
          · rw [if_neg hse] at hst
            obtain ⟨e', he', h1, h2⟩ := hinv.1 s t hst
            exact ⟨e', List.mem_append_left _ he', h1, h2⟩
        · intro k hk
          simp only [nodeFlag_closeNode, nodeFlag_closeEdge] at hk
          by_cases hke : k = e.tgt
          · exact Or.inr ⟨e, List.mem_append_right _ (by simp), hke.symm⟩
          · rw [if_neg hke] at hk
            rcases hinv.2 k hk with h1 | ⟨e', he', h2⟩
            · exact Or.inl h1
            · exact Or.inr ⟨e', List.mem_append_left _ he', h2⟩
      by_cases ht : e.tgt = target
      · rw [if_pos ht] at h
        cases h
        exact hinv1
      · rw [if_neg ht] at h
        exact ih _ _ _ _ _ _ _ h hinv1
    · rw [if_neg hc] at h
      exact ih _ _ _ _ _ _ _ h hinv

theorem bfsLoop_closedInv (a : K) (adj : K → List (Edge K E)) (target : K) :
    ∀ (fuel : Nat) (st : St K) (q : List K) (r : List (Edge K E)) st' r' f,
      bfsLoop adj target fuel st q r = some (st', r', f) →
      ClosedInv a st r → ClosedInv a st' r' := by
  intro fuel
  induction fuel with
  | zero =>
    intro st q r st' r' f h hinv
    cases q with
    | nil => cases h; exact hinv
    | cons n rest => cases h
  | succ fuel ih =>
    intro st q r st' r' f h hinv
    cases q with
    | nil => cases h; exact hinv
    | cons n rest =>
      simp only [bfsLoop] at h
      rcases hc : traverse_consume_node target (adj n) st rest r with ⟨st1, q1, r1, found⟩
      rw [hc] at h
      have hinv1 := consume_closedInv a target (adj n) _ _ _ _ _ _ _ hc hinv
      cases found with
      | true =>
        simp only [if_true] at h
        cases h
        exact hinv1
      | false =>
        simp only [Bool.false_eq_true, if_false] at h
        exact ih _ _ _ _ _ _ h hinv1

theorem consume_src_mem (a target : K) (l : List (Edge K E)) :
    ∀ (st : St K) (q : List K) (r : List (Edge K E)) st' q' r' f,
      traverse_consume_node target l st q r = (st', q', r', f) →
      (∀ e ∈ l, e.src = a) →
      (∀ e ∈ r, e.src = a) →
      ClosedInv a st r →
      (∃ e ∈ l, e.tgt ≠ a) →
      ∃ e ∈ r', e.src = a := by
  induction l with
  | nil =>
    intro st q r st' q' r' f h _ _ _ hex
    obtain ⟨e, he, -⟩ := hex
    cases he
  | cons e l ih =>
    intro st q r st' q' r' f h hsrc hr hinv hex
    simp only [traverse_consume_node] at h
    by_cases hc : st.edgeFlag e.src e.tgt = OPEN ∧ st.nodeFlag e.tgt = OPEN
    · rw [if_pos hc] at h
      by_cases ht : e.tgt = target
      · rw [if_pos ht] at h
        cases h
        exact ⟨e, List.mem_append_right _ (by simp), hsrc e (by simp)⟩
      · rw [if_neg ht] at h
        obtain ⟨d1, hd1, -⟩ := consume_shape target l _ _ _ _ _ _ _ h
        refine ⟨e, ?_, hsrc e (by simp)⟩
        rw [hd1]
        exact List.mem_append_left _ (List.mem_append_right _ (by simp))
    · rw [if_neg hc] at h
      rw [not_and_or] at hc
      obtain ⟨d1, hd1, -⟩ := consume_shape target l _ _ _ _ _ _ _ h
      rcases hc with hce | hcn
      · have hclosed : st.edgeFlag e.src e.tgt = CLOSED := ne_open_eq_closed hce
        obtain ⟨e', he', hs', -⟩ := hinv.1 _ _ hclosed
        refine ⟨e', ?_, ?_⟩
        · rw [hd1]; exact List.mem_append_left _ he'
        · rw [hs']; exact hsrc e (by simp)
      · have hclosed : st.nodeFlag e.tgt = CLOSED := ne_open_eq_closed hcn
        rcases hinv.2 _ hclosed with h1 | ⟨e', he', -⟩
        · obtain ⟨e0, he0, h0⟩ := hex
          rcases List.mem_cons.mp he0 with rfl | he0l
          · exact absurd h1 h0
          · exact ih _ _ _ _ _ _ _ h
              (fun e' he' => hsrc e' (List.mem_cons_of_mem _ he')) hr hinv ⟨e0, he0l, h0⟩
        · refine ⟨e', ?_, hr e' he'⟩
          rw [hd1]; exact List.mem_append_left _ he'

theorem runSearch_inv (adj : K → List (Edge K E)) (a b : K) (fuel : Nat)
    {st3 : St K} {r : List (Edge K E)} {f fc : Bool}
    (hsrc : ∀ e ∈ adj a, e.src = a)
    (hrun : runSearch adj a b fuel stOpen = some (st3, r, f, fc)) :
    ClosedInv a st3 r ∧ ((∃ e ∈ adj a, e.tgt ≠ a) → ∃ e ∈ r, e.src = a) ∧
    (f = true → r ≠ []) := by
  have hbase : ClosedInv a ((stOpen : St K).closeNode a) ([] : List (Edge K E)) := by
    constructor
    · intro s t hst
      simp only [edgeFlag_closeNode, edgeFlag_stOpen] at hst
      exact absurd hst (by decide)
    · intro k hk
      simp only [nodeFlag_closeNode, nodeFlag_stOpen] at hk
      by_cases hka : k = a
      · exact Or.inl hka
      · rw [if_neg hka] at hk
        exact absurd hk (by decide)
  have hnilsrc : ∀ e ∈ ([] : List (Edge K E)), e.src = a :=
    fun e he => absurd he (List.not_mem_nil e)
  simp only [runSearch] at hrun
  rcases hc : traverse_consume_node b (adj a) ((stOpen : St K).closeNode a) [] [] with
    ⟨st2, q2, r2, found⟩
  rw [hc] at hrun
  cases found with
  | true =>
    simp only [if_true] at hrun
    cases hrun
    refine ⟨consume_closedInv a b (adj a) _ _ _ _ _ _ _ hc hbase, ?_, ?_⟩
    · intro hex
      exact consume_src_mem a b (adj a) _ _ _ _ _ _ _ hc hsrc hnilsrc hbase hex
    · intro _
      exact consume_nonempty_of_found b (adj a) _ _ _ _ _ _ hc
  | false =>
    simp only [Bool.false_eq_true, if_false] at hrun
    rcases hl : bfsLoop adj b fuel st2 q2 r2 with - | ⟨st4, r4, f4⟩
    · rw [hl] at hrun; cases hrun
    · rw [hl] at hrun
      cases hrun
      have hinv2 := consume_closedInv a b (adj a) _ _ _ _ _ _ _ hc hbase
      obtain ⟨d2, hd2⟩ := bfsLoop_shape adj b fuel _ _ _ _ _ _ hl
      refine ⟨bfsLoop_closedInv a adj b fuel _ _ _ _ _ _ hl hinv2, ?_, ?_⟩
      · intro hex
        obtain ⟨e, he, hs⟩ :=
          consume_src_mem a b (adj a) _ _ _ _ _ _ _ hc hsrc hnilsrc hbase hex
        exact ⟨e, hd2 ▸ List.mem_append_left _ he, hs⟩
      · intro hf4
        subst hf4
        exact bfsLoop_nonempty_of_found adj b fuel _ _ _ _ _ hl

theorem open_all_restores (a : K) (st : St K) (r : List (Edge K E))
    (hinv : ClosedInv a st r) :
    (∀ s t, (open_all st r).edgeFlag s t = OPEN) ∧
    (∀ k, k ≠ a → (open_all st r).nodeFlag k = OPEN) ∧
    ((∃ e ∈ r, e.src = a) → (open_all st r).nodeFlag a = OPEN) := by
  refine ⟨?_, ?_, ?_⟩
  · intro s t
    cases hval : st.edgeFlag s t with
    | false => exact open_all_pres_edge r st s t hval
    | true =>
      obtain ⟨e, he, hs, htg⟩ := hinv.1 s t hval
      have h1 := (open_all_mem r st e he).1
      rw [hs, htg] at h1
      exact h1
  · intro k hk
    cases hval : st.nodeFlag k with
    | false => exact open_all_pres_node r st k hval
    | true =>
      rcases hinv.2 k hval with h1 | ⟨e, he, htg⟩
      · exact absurd h1 hk
      · have h1 := (open_all_mem r st e he).2.2
        rw [htg] at h1
        exact h1
  · rintro ⟨e, he, hs⟩
    have h1 := (open_all_mem r st e he).2.1
    rw [hs] at h1
    exact h1

theorem closedInv_reverse (a : K) (st : St K) (r : List (Edge K E))
    (h : ClosedInv a st r) : ClosedInv a st r.reverse := by
  constructor
  · intro s t hst
    obtain ⟨e, he, h1, h2⟩ := h.1 s t hst
    exact ⟨e, List.mem_reverse.mpr he, h1, h2⟩
  · intro k hk
    rcases h.2 k hk with h1 | ⟨e, he, h2⟩
    · exact Or.inl h1
    · exact Or.inr ⟨e, List.mem_reverse.mpr he, h2⟩

theorem backtrack_fst (st : St K) (r : List (Edge K E)) (h : r ≠ []) :
    (backtrack st r).1 = open_all st r.reverse := by
  cases hrev : r.reverse with
  | nil => exact absurd (List.reverse_eq_nil_iff.mp hrev) h
  | cons last rest =>
    simp only [backtrack, hrev]
    have h1 := backtrackAux_fst (last :: rest) st [last] 0
    rw [← hrev] at h1 ⊢
    exact h1

theorem backtrack_restores (a : K) (st : St K) (r : List (Edge K E))
    (hinv : ClosedInv a st r) (hne : r ≠ []) :
    (∀ s t, (backtrack st r).1.edgeFlag s t = OPEN) ∧
    (∀ k, k ≠ a → (backtrack st r).1.nodeFlag k = OPEN) ∧
    ((∃ e ∈ r, e.src = a) → (backtrack st r).1.nodeFlag a = OPEN) := by
  rw [backtrack_fst st r hne]
  have hrev := open_all_restores a st r.reverse (closedInv_reverse a st r hinv)
  refine ⟨hrev.1, hrev.2.1, ?_⟩
  rintro ⟨e, he, hs⟩
  exact hrev.2.2 ⟨e, List.mem_reverse.mpr he, hs⟩

/-- C1 counterexample: on the edgeless two-node graph with all flags OPEN,
`traverse_breadth(0, 1)` completes (returning no path), yet the source
node's flag is left CLOSED, not OPEN — the final `open_all` runs over the
empty trace and never reopens the self-closed source. -/
theorem traverse_breadth_leaves_source_closed :
    (traverse_breadth (fun _ => ([] : List (Edge Nat Unit))) 0 1 5 stOpen).map
      (fun p => (p.1.nodeFlag 0, p.2.isSome)) = some (CLOSED, false) ∧
    CLOSED ≠ OPEN := by decide

/-- C1 amended: for every graph whose outbound edges of `a` have source
`a`, and every completed `traverse_breadth`/`shortest_path` call from `a`
started in the all-OPEN state, every edge flag is OPEN afterwards and
every node flag other than `a`'s is OPEN; `a`'s own flag is also OPEN
provided `a` has at least one outbound edge whose target is not `a`
(without such an edge the source flag can remain CLOSED). -/
theorem search_flags_restored (adj : K → List (Edge K E)) (a b : K) (fuel : Nat)
    (p q : St K × Option (List (Edge K E)))
    (hsrc : ∀ e ∈ adj a, e.src = a)
    (htb : traverse_breadth adj a b fuel stOpen = some p)
    (hsp : shortest_path adj a b fuel stOpen = some q) :
    FlagsRestored a p.1 (adj a) ∧ FlagsRestored a q.1 (adj a) := by
  rcases hrs : runSearch adj a b fuel stOpen with - | ⟨st3, r, f, fc⟩
  · rw [traverse_breadth, hrs] at htb
    cases htb
  obtain ⟨hinv, hsrcr, hner⟩ := runSearch_inv adj a b fuel hsrc hrs
  have hopen := open_all_restores a st3 r hinv
  have hopenFR : FlagsRestored a (open_all st3 r) (adj a) := by
    refine ⟨hopen.1, hopen.2.1, ?_⟩
    intro hex
    exact hopen.2.2 (hsrcr hex)
  constructor
  · rw [traverse_breadth, hrs] at htb
    simp only at htb
    cases htb
    exact hopenFR
  · rw [shortest_path, hrs] at hsp
    simp only at hsp
    cases f with
    | false =>
      simp only [Bool.false_eq_true, if_false] at hsp
      cases hsp
      exact hopenFR
    | true =>
      cases fc with
      | true =>
        simp only [if_true] at hsp
        cases hsp
        exact hopenFR
      | false =>
        simp only [if_true, Bool.false_eq_true, if_false] at hsp
        cases hsp
        have hne : r ≠ [] := hner rfl
        have hbt := backtrack_restores a st3 r hinv hne
        refine ⟨hbt.1, hbt.2.1, ?_⟩
        intro hex
        exact hbt.2.2 (hsrcr hex)

/-- Witness for C1 (amended): the completed runs on `adjW` (edges 0→1,
1→2) from 0 towards 2, whose results are `pW` and `qW`. -/
theorem search_flags_restored_witness :
    (∀ e ∈ adjW 0, e.src = 0) ∧
    traverse_breadth adjW 0 2 5 stOpen = some pW ∧
    shortest_path adjW 0 2 5 stOpen = some qW ∧
    (FlagsRestored 0 pW.1 (adjW 0) ∧ FlagsRestored 0 qW.1 (adjW 0)) :=
  ⟨by decide, rfl, rfl,
    search_flags_restored adjW 0 2 5 pW qW (by decide) rfl rfl⟩

/-- Witness for C2 (amended) on `adjC2` with `l1 = [0→1]`, `l2 = []`. -/
theorem shortest_path_direct_edge_witness :
    (adjC2 0 = [⟨0, 1, ()⟩] ++ ⟨0, 2, ()⟩ :: []) ∧
    (∀ e ∈ [(⟨0, 1, ()⟩ : Edge Nat Unit)], e.src = 0) ∧
    (∀ e ∈ [(⟨0, 1, ()⟩ : Edge Nat Unit)], e.tgt ≠ 2) ∧
    (∀ e ∈ [(⟨0, 1, ()⟩ : Edge Nat Unit)], e.tgt ≠ 0) ∧
    ([(⟨0, 1, ()⟩ : Edge Nat Unit)].map Edge.tgt).Nodup ∧
    (2 : Nat) ≠ 0 ∧
    pathOf (shortest_path adjC2 0 2 5 stOpen) =
      some (some ([⟨0, 1, ()⟩] ++ [⟨0, 2, ()⟩])) :=
  ⟨by decide, by decide, by decide, by decide, by decide, by decide,
    shortest_path_direct_edge adjC2 0 2 () 5 [⟨0, 1, ()⟩] []
      (by decide) (by decide) (by decide) (by decide) (by decide) (by decide)⟩

end Fastgraph
